import Mathlib

/-!
Shallow embedding of the declarative apt reconciler in `dapt.py`.

Package identifiers are strings.  The pure state operations (`State.diff`,
`State.patch`, the declared-state scanner) are translated directly from the
Python source; the stateful reconciler commands (`DApt.init`, `DApt.plan`,
`DApt.apply`) are modelled as functions over explicit file contents, a backend
cache and a flag saying whether the backend commit raises, returning the
sequence of backend calls, the warnings printed, the process exit code and the
state file left on disk.
-/

abbrev Pkg := String

/-- A plan as stored in `plan.json`: the `install` and `remove` lists. -/
structure Plan where
  install : List Pkg
  remove : List Pkg
deriving DecidableEq

namespace State

/-- `State.diff` from the source:
`[item for item in desired if item not in current]`. -/
def diff (desired current : List Pkg) : List Pkg :=
  desired.filter (fun item => decide (item ∉ current))

/-- Python `list.remove`: delete the first occurrence, or raise `ValueError`
(modelled as `none`) when the element is absent. -/
def removeFirstOcc : List Pkg → Pkg → Option (List Pkg)
  | [], _ => none
  | x :: xs, p => if x = p then some xs else (removeFirstOcc xs p).map (x :: ·)

/-- The loop `for pkg in plan["remove"]: new.remove(pkg)`, removing the listed
elements in order; `none` as soon as one removal raises. -/
def removeSeq : List Pkg → List Pkg → Option (List Pkg)
  | l, [] => some l
  | l, p :: ps => (removeFirstOcc l p).bind (fun l2 => removeSeq l2 ps)

/-- Python `dict.fromkeys`: keep the first occurrence of each element, in
order.  `seen` is the set of keys already emitted. -/
def dedupAux : List Pkg → List Pkg → List Pkg
  | [], _ => []
  | x :: xs, seen =>
    if x ∈ seen then dedupAux xs seen else x :: dedupAux xs (x :: seen)

/-- `list(dict.fromkeys(new))`: first-occurrence deduplication. -/
def dedupFirstOcc (l : List Pkg) : List Pkg :=
  dedupAux l []

/-- `State.patch` from the source: extend the state with `plan["install"]`,
remove each element of `plan["remove"]` (first occurrence; raising — `none` —
if absent), then deduplicate keeping first occurrences. -/
def patch (state : List Pkg) (plan : Plan) : Option (List Pkg) :=
  (removeSeq (state ++ plan.install) plan.remove).map dedupFirstOcc

end State

namespace DApt

/-- The pure heart of `DApt.plan`:
`plan["install"] = State.diff(declared, current)`;
`plan["remove"] = State.diff(current, declared)`. -/
def plan (declared current : List Pkg) : Plan :=
  ⟨State.diff declared current, State.diff current declared⟩

end DApt

/-! The backend boundary and the reconciler commands. -/

/-- A call made against the apt cache session. -/
inductive BackendCall where
  | markInstall (p : Pkg)
  | markDelete (p : Pkg)
  | commit
deriving DecidableEq

/-- A warning printed to stderr. -/
inductive Warning where
  | notFoundInCache (p : Pkg)
  | notInstalledSkip (p : Pkg)
deriving DecidableEq

/-- The apt cache, as the backend exposes it: which package names resolve and
which of them are currently installed. -/
structure Cache where
  pkgs : List Pkg
  installed : List Pkg
deriving DecidableEq

/-- How `AptWrapper.commit_changes` ends: an early `return False` on an
unresolvable package, `sys.exit(1)` when `cache.commit()` raises, or a normal
return. -/
inductive CommitOutcome where
  | resolutionFail
  | commitFail
  | success
deriving DecidableEq

/-- The content found in a file: absent, unparsable, or a parsed value. -/
inductive FileData (α : Type) where
  | missing
  | corrupt
  | stored (a : α)
deriving DecidableEq

/-- The JSON document in `plan.json`.  `DApt.apply` tests the parsed document
with Python truthiness (`if not plan:`), which for a dict is emptiness of the
dict, so the empty object is distinguished from an object with (possibly
empty) `install` and `remove` lists. -/
inductive PlanJson where
  | emptyObject
  | planObject (p : Plan)
deriving DecidableEq

namespace AptWrapper

/-- The `for pkg in changes["install"]` loop of `commit_changes`: mark each
resolvable package for install; on the first unresolvable package print a
warning and stop with `False` (third component `false`). -/
def markInstalls (cache : Cache) : List Pkg → List BackendCall × List Warning × Bool
  | [] => ([], [], true)
  | p :: ps =>
    if p ∈ cache.pkgs then
      match markInstalls cache ps with
      | (calls, warns, ok) => (BackendCall.markInstall p :: calls, warns, ok)
    else ([], [Warning.notFoundInCache p], false)

/-- The `for pkg in changes["remove"]` loop of `commit_changes`: an
unresolvable package stops the loop with `False`; a resolvable package is
marked for delete only when currently installed, otherwise a warning is
printed and the loop continues. -/
def markRemoves (cache : Cache) : List Pkg → List BackendCall × List Warning × Bool
  | [] => ([], [], true)
  | p :: ps =>
    if p ∈ cache.pkgs then
      if p ∈ cache.installed then
        match markRemoves cache ps with
        | (calls, warns, ok) => (BackendCall.markDelete p :: calls, warns, ok)
      else
        match markRemoves cache ps with
        | (calls, warns, ok) => (calls, Warning.notInstalledSkip p :: warns, ok)
    else ([], [Warning.notFoundInCache p], false)

/-- `AptWrapper.commit_changes`: run the two marking loops against the
in-memory cache session; if either loop bailed out, return `False` without
committing; otherwise call `cache.commit()`, which either raises
(`commitFails = true`, leading to `sys.exit(1)`) or succeeds. -/
def commit_changes (cache : Cache) (commitFails : Bool) (changes : Plan) :
    List BackendCall × List Warning × CommitOutcome :=
  match markInstalls cache changes.install with
  | (ic, iw, false) => (ic, iw, CommitOutcome.resolutionFail)
  | (ic, iw, true) =>
    match markRemoves cache changes.remove with
    | (rc, rw, false) => (ic ++ rc, iw ++ rw, CommitOutcome.resolutionFail)
    | (rc, rw, true) =>
      (ic ++ rc ++ [BackendCall.commit], iw ++ rw,
        if commitFails then CommitOutcome.commitFail else CommitOutcome.success)

end AptWrapper

/-- What one run of a reconciler command leaves behind: the backend calls made,
the warnings printed, the process exit code, the state file on disk after the
run, and whether the run printed the no-changes report. -/
structure ApplyOutcome where
  calls : List BackendCall
  warnings : List Warning
  exitCode : Nat
  stateAfter : FileData (List Pkg)
  reportedNoChanges : Bool
deriving DecidableEq

namespace DApt

/-- `DApt.init`: if the state file exists (whatever its content), report and
`sys.exit(0)` without touching it; otherwise write an empty state. -/
def init (stateFile : FileData (List Pkg)) : Nat × FileData (List Pkg) :=
  match stateFile with
  | FileData.missing => (0, FileData.stored [])
  | f => (0, f)

/-- The tail of `DApt.apply` after `commit_changes` has returned: compute
`State.patch` (an absent remove target raises an uncaught `ValueError`,
terminating the process without writing) and write the new state. -/
def applyFinish (s : List Pkg) (p : Plan) (calls : List BackendCall)
    (warns : List Warning) : ApplyOutcome :=
  match State.patch s p with
  | none => ⟨calls, warns, 1, FileData.stored s, false⟩
  | some ns => ⟨calls, warns, 0, FileData.stored ns, false⟩

/-- `DApt.apply`: read the state file (exit 1 when missing or unparsable),
read the plan file (exit 1 when missing or unparsable), print the no-changes
report and exit 0 only when the parsed plan document is Python-falsy (the
empty dict); otherwise run `commit_changes` — whose `False` return value is
ignored by the caller — and, unless commit raised, patch and rewrite the
state file. -/
def apply (stateFile : FileData (List Pkg)) (planFile : FileData PlanJson)
    (cache : Cache) (commitFails : Bool) : ApplyOutcome :=
  match stateFile with
  | FileData.missing => ⟨[], [], 1, FileData.missing, false⟩
  | FileData.corrupt => ⟨[], [], 1, FileData.corrupt, false⟩
  | FileData.stored s =>
    match planFile with
    | FileData.missing => ⟨[], [], 1, FileData.stored s, false⟩
    | FileData.corrupt => ⟨[], [], 1, FileData.stored s, false⟩
    | FileData.stored PlanJson.emptyObject => ⟨[], [], 0, FileData.stored s, true⟩
    | FileData.stored (PlanJson.planObject p) =>
      match AptWrapper.commit_changes cache commitFails p with
      | (calls, warns, CommitOutcome.commitFail) =>
        ⟨calls, warns, 1, FileData.stored s, false⟩
      | (calls, warns, CommitOutcome.resolutionFail) => applyFinish s p calls warns
      | (calls, warns, CommitOutcome.success) => applyFinish s p calls warns

end DApt

/-! The declared-state scanner (`State.build_user_declared_state`).  Lines are
modelled as lists of characters; the helpers below mirror the Python string
methods used by the source (`strip`, `startswith`, `endswith`,
`lstrip("-")`). -/

/-- The whitespace characters stripped by Python `str.strip()`. -/
def isSpaceChar (c : Char) : Bool :=
  c == ' ' || c == '\t' || c == '\n' || c == '\r'

/-- Python `line.strip()`: drop leading and trailing whitespace. -/
def trimChars (s : List Char) : List Char :=
  ((s.dropWhile isSpaceChar).reverse.dropWhile isSpaceChar).reverse

/-- Python `line.startswith(c)` for a one-character pattern. -/
def headIs (s : List Char) (c : Char) : Bool :=
  match s with
  | [] => false
  | d :: _ => d == c

/-- Python `line.endswith(c)` for a one-character pattern. -/
def lastIs (s : List Char) (c : Char) : Bool :=
  headIs s.reverse c

/-- Python `line.startswith("---")`. -/
def tripleDash (s : List Char) : Bool :=
  match s with
  | '-' :: '-' :: '-' :: _ => true
  | _ => false

namespace State

/-- The body of the scanning loop of `build_user_declared_state`, acting on
one raw line: strip it; skip it when blank, a `#` comment, a `---` separator
or a section header ending in `:`; when it starts with `-`, strip ALL leading
`-` characters (Python `lstrip("-")`), strip whitespace, and append the item
when non-empty; ignore anything else. -/
def buildStep (state : List Pkg) (rawLine : List Char) : List Pkg :=
  let l := trimChars rawLine
  if l.isEmpty || headIs l '#' then state
  else if tripleDash l then state
  else if lastIs l ':' then state
  else if headIs l '-' then
    let item := trimChars (l.dropWhile (fun c => c == '-'))
    if item.isEmpty then state else state ++ [String.mk item]
  else state

/-- `State.build_user_declared_state` from the source: fold the scanning loop
over the input lines, starting from the empty state. -/
def build_user_declared_state (lines : List (List Char)) : List Pkg :=
  lines.foldl buildStep []

end State

/-- The per-line contribution as claim C9 words it: same skip rules, but a
line beginning with the list-item marker `-` contributes "the trimmed
remainder after the list-item marker", i.e. the remainder after the single
marker character, trimmed of whitespace. -/
def claimLineContribution (rawLine : List Char) : Option Pkg :=
  let l := trimChars rawLine
  if l.isEmpty || headIs l '#' then none
  else if tripleDash l then none
  else if lastIs l ':' then none
  else if headIs l '-' then
    let item := trimChars (l.drop 1)
    if item.isEmpty then none else some (String.mk item)
  else none

/-- The per-line contribution as the code actually computes it (the amended
claim): a line beginning with `-` contributes the remainder after stripping
ALL leading `-` characters, trimmed of whitespace. -/
def amendedLineContribution (rawLine : List Char) : Option Pkg :=
  let l := trimChars rawLine
  if l.isEmpty || headIs l '#' then none
  else if tripleDash l then none
  else if lastIs l ':' then none
  else if headIs l '-' then
    let item := trimChars (l.dropWhile (fun c => c == '-'))
    if item.isEmpty then none else some (String.mk item)
  else none


/-- C4: `State.diff(desired, current)` returns exactly the elements of
`desired` not present in `current` (membership characterisation), in the same
relative order as in `desired` (it is a sublist of `desired`), and it
produces a duplicate-free list whenever `desired` is duplicate-free.  It is a
total function, so it has no failure modes. -/
theorem diff_exact_sublist_nodup (desired current : List Pkg) :
    (∀ x, x ∈ State.diff desired current ↔ x ∈ desired ∧ x ∉ current) ∧
    (State.diff desired current).Sublist desired ∧
    (desired.Nodup → (State.diff desired current).Nodup) := by
  refine ⟨fun x => ?_, List.filter_sublist desired, fun h => h.filter _⟩
  simp [State.diff]

/-- Witness for C4 at a concrete input. -/
theorem diff_exact_sublist_nodup_witness :
    ("b" ∈ State.diff ["a", "b"] ["a"] ↔ "b" ∈ ["a", "b"] ∧ "b" ∉ ["a"]) ∧
    (State.diff ["a", "b"] ["a"]).Nodup :=
  ⟨(diff_exact_sublist_nodup ["a", "b"] ["a"]).1 "b",
   (diff_exact_sublist_nodup ["a", "b"] ["a"]).2.2 (by decide)⟩

/-! Helper lemmas about the building blocks of `State.patch`. -/

theorem removeFirstOcc_eq_erase {l : List Pkg} {p : Pkg} (h : p ∈ l) :
    State.removeFirstOcc l p = some (l.erase p) := by
  induction l with
  | nil => cases h
  | cons x xs ih =>
    by_cases hx : x = p
    · subst hx
      simp [State.removeFirstOcc]
    · have hp : p ∈ xs := by
        cases List.mem_cons.mp h with
        | inl h1 => exact absurd h1.symm hx
        | inr h2 => exact h2
      have hbeq : ¬(x == p) := by simp [hx]
      simp [State.removeFirstOcc, hx, ih hp, List.erase_cons_tail hbeq]

theorem removeSeq_spec :
    ∀ {rem l : List Pkg}, l.Nodup → rem.Nodup → (∀ p ∈ rem, p ∈ l) →
      ∃ r, State.removeSeq l rem = some r ∧ r.Nodup ∧
        ∀ x, (x ∈ r ↔ x ∈ l ∧ x ∉ rem)
  | [], l, hl, _, _ => ⟨l, rfl, hl, by simp⟩
  | p :: ps, l, hl, hrem, hsub => by
    have hp : p ∈ l := hsub p (List.mem_cons_self p ps)
    have hps : ps.Nodup := (List.nodup_cons.mp hrem).2
    have hpn : p ∉ ps := (List.nodup_cons.mp hrem).1
    have hsub2 : ∀ q ∈ ps, q ∈ l.erase p := by
      intro q hq
      have hqp : q ≠ p := fun e => hpn (e ▸ hq)
      exact (List.mem_erase_of_ne hqp).mpr (hsub q (List.mem_cons_of_mem p hq))
    obtain ⟨r, h1, h2, h3⟩ := removeSeq_spec (hl.erase p) hps hsub2
    refine ⟨r, ?_, h2, ?_⟩
    · simp [State.removeSeq, removeFirstOcc_eq_erase hp, h1]
    · intro x
      rw [h3 x, hl.mem_erase_iff]
      simp only [List.mem_cons]
      tauto

theorem removeSeq_total :
    ∀ {rem l : List Pkg}, rem.Nodup → (∀ p ∈ rem, p ∈ l) →
      ∃ r, State.removeSeq l rem = some r
  | [], l, _, _ => ⟨l, rfl⟩
  | p :: ps, l, hrem, hsub => by
    have hp : p ∈ l := hsub p (List.mem_cons_self p ps)
    have hps : ps.Nodup := (List.nodup_cons.mp hrem).2
    have hpn : p ∉ ps := (List.nodup_cons.mp hrem).1
    have hsub2 : ∀ q ∈ ps, q ∈ l.erase p := by
      intro q hq
      have hqp : q ≠ p := fun e => hpn (e ▸ hq)
      exact (List.mem_erase_of_ne hqp).mpr (hsub q (List.mem_cons_of_mem p hq))
    obtain ⟨r, h1⟩ := removeSeq_total hps hsub2
    exact ⟨r, by simp [State.removeSeq, removeFirstOcc_eq_erase hp, h1]⟩

theorem mem_dedupAux :
    ∀ (l seen : List Pkg) (x : Pkg),
      x ∈ State.dedupAux l seen ↔ x ∈ l ∧ x ∉ seen
  | [], seen, x => by simp [State.dedupAux]
  | y :: ys, seen, x => by
    by_cases hy : y ∈ seen
    · rw [State.dedupAux, if_pos hy, mem_dedupAux ys seen x]
      simp only [List.mem_cons]
      constructor
      · rintro ⟨h1, h2⟩
        exact ⟨Or.inr h1, h2⟩
      · rintro ⟨h1 | h1, h2⟩
        · exact absurd (h1 ▸ hy) h2
        · exact ⟨h1, h2⟩
    · rw [State.dedupAux, if_neg hy]
      simp only [List.mem_cons, mem_dedupAux ys (y :: seen) x]
      constructor
      · rintro (rfl | ⟨h1, h2⟩)
        · exact ⟨Or.inl rfl, hy⟩
        · exact ⟨Or.inr h1, fun hc => h2 (Or.inr hc)⟩
      · rintro ⟨h1 | h1, h2⟩
        · exact Or.inl h1
        · by_cases hxy : x = y
          · exact Or.inl hxy
          · refine Or.inr ⟨h1, fun hc => ?_⟩
            cases hc with
            | inl h3 => exact hxy h3
            | inr h3 => exact h2 h3

theorem nodup_dedupAux : ∀ (l seen : List Pkg), (State.dedupAux l seen).Nodup
  | [], _ => by simp [State.dedupAux]
  | y :: ys, seen => by
    by_cases hy : y ∈ seen
    · rw [State.dedupAux, if_pos hy]
      exact nodup_dedupAux ys seen
    · rw [State.dedupAux, if_neg hy]
      refine List.nodup_cons.mpr ⟨?_, nodup_dedupAux ys (y :: seen)⟩
      rw [mem_dedupAux]
      rintro ⟨_, h2⟩
      exact h2 (List.mem_cons_self y seen)

theorem dedupAux_sublist : ∀ (l seen : List Pkg), (State.dedupAux l seen).Sublist l
  | [], _ => by simp [State.dedupAux]
  | y :: ys, seen => by
    by_cases hy : y ∈ seen
    · rw [State.dedupAux, if_pos hy]
      exact (dedupAux_sublist ys seen).cons y
    · rw [State.dedupAux, if_neg hy]
      exact (dedupAux_sublist ys (y :: seen)).cons₂ y

theorem dedupAux_pairwise_indexOf :
    ∀ (l seen : List Pkg),
      (State.dedupAux l seen).Pairwise (fun a b => l.indexOf a < l.indexOf b)
  | [], _ => by simp [State.dedupAux]
  | y :: ys, seen => by
    by_cases hy : y ∈ seen
    · rw [State.dedupAux, if_pos hy]
      refine (dedupAux_pairwise_indexOf ys seen).imp_of_mem ?_
      intro a b ha hb hab
      have ha2 := (mem_dedupAux ys seen a).mp ha
      have hb2 := (mem_dedupAux ys seen b).mp hb
      have hay : a ≠ y := fun e => ha2.2 (e ▸ hy)
      have hby : b ≠ y := fun e => hb2.2 (e ▸ hy)
      rw [List.indexOf_cons_ne ys (Ne.symm hay), List.indexOf_cons_ne ys (Ne.symm hby)]
      exact Nat.succ_lt_succ hab
    · rw [State.dedupAux, if_neg hy]
      refine List.pairwise_cons.mpr ⟨?_, ?_⟩
      · intro b hb
        have hb2 := (mem_dedupAux ys (y :: seen) b).mp hb
        have hby : b ≠ y := fun e => hb2.2 (e ▸ List.mem_cons_self y seen)
        rw [List.indexOf_cons_self, List.indexOf_cons_ne ys (Ne.symm hby)]
        exact Nat.succ_pos _
      · refine (dedupAux_pairwise_indexOf ys (y :: seen)).imp_of_mem ?_
        intro a b ha hb hab
        have ha2 := (mem_dedupAux ys (y :: seen) a).mp ha
        have hb2 := (mem_dedupAux ys (y :: seen) b).mp hb
        have hay : a ≠ y := fun e => ha2.2 (e ▸ List.mem_cons_self y seen)
        have hby : b ≠ y := fun e => hb2.2 (e ▸ List.mem_cons_self y seen)
        rw [List.indexOf_cons_ne ys (Ne.symm hay), List.indexOf_cons_ne ys (Ne.symm hby)]
        exact Nat.succ_lt_succ hab

/-- C5: for duplicate-free snapshots `A` and `B`,
`Patch(A, {install: Diff(B,A), remove: Diff(A,B)})` succeeds and the result
has the same members as `B`. -/
theorem patch_diff_converges (A B : List Pkg) (hA : A.Nodup) (hB : B.Nodup) :
    ∃ r, State.patch A ⟨State.diff B A, State.diff A B⟩ = some r ∧
      ∀ x, (x ∈ r ↔ x ∈ B) := by
  have hdBA : (State.diff B A).Nodup := hB.filter _
  have hdAB : (State.diff A B).Nodup := hA.filter _
  have hdisj : A.Disjoint (State.diff B A) := by
    intro x hx hx2
    have h := (List.mem_filter.mp hx2).2
    simp only [decide_eq_true_eq] at h
    exact h hx
  have hl : (A ++ State.diff B A).Nodup := hA.append hdBA hdisj
  have hsub : ∀ p ∈ State.diff A B, p ∈ A ++ State.diff B A := by
    intro p hp
    exact List.mem_append_left _ (List.mem_filter.mp hp).1
  obtain ⟨r0, h1, _, h3⟩ := removeSeq_spec hl hdAB hsub
  refine ⟨State.dedupFirstOcc r0, ?_, ?_⟩
  · simp [State.patch, h1]
  · intro x
    simp only [State.dedupFirstOcc, mem_dedupAux, List.not_mem_nil, not_false_iff, and_true]
    rw [h3 x]
    simp only [List.mem_append, State.diff, List.mem_filter, decide_eq_true_eq]
    tauto

/-- Witness for C5 at a concrete input. -/
theorem patch_diff_converges_witness :
    ∃ r, State.patch ["a"] ⟨State.diff ["b"] ["a"], State.diff ["a"] ["b"]⟩ = some r ∧
      ∀ x, (x ∈ r ↔ x ∈ (["b"] : List Pkg)) :=
  patch_diff_converges ["a"] ["b"] (by decide) (by decide)

/-- C6: whenever `State.patch` returns normally it returns a duplicate-free
snapshot — even if the install list repeats entries already in the state —
and its order is the first-occurrence order of the intermediate
append-then-remove sequence `mid`: the result is a sublist of `mid`, has the
same members as `mid`, and is sorted by the index of the first occurrence in
`mid`. -/
theorem patch_nodup_first_occurrence (state : List Pkg) (p : Plan) (r : List Pkg)
    (h : State.patch state p = some r) :
    r.Nodup ∧
    ∃ mid, State.removeSeq (state ++ p.install) p.remove = some mid ∧
      (∀ x, x ∈ r ↔ x ∈ mid) ∧ r.Sublist mid ∧
      r.Pairwise (fun a b => mid.indexOf a < mid.indexOf b) := by
  obtain ⟨mid, hmid, hr⟩ := Option.map_eq_some'.mp h
  subst hr
  refine ⟨nodup_dedupAux mid [], mid, hmid, ?_, dedupAux_sublist mid [],
    dedupAux_pairwise_indexOf mid []⟩
  intro x
  simp [State.dedupFirstOcc, mem_dedupAux]

/-- Witness for C6 at a concrete input with a repeated install entry. -/
theorem patch_nodup_first_occurrence_witness :
    (["a", "b"] : List Pkg).Nodup ∧
    ∃ mid, State.removeSeq (["a"] ++ ["a", "b"]) [] = some mid ∧
      (∀ x, x ∈ (["a", "b"] : List Pkg) ↔ x ∈ mid) ∧
      (["a", "b"] : List Pkg).Sublist mid ∧
      (["a", "b"] : List Pkg).Pairwise (fun a b => mid.indexOf a < mid.indexOf b) :=
  patch_nodup_first_occurrence ["a"] ⟨["a", "b"], []⟩ ["a", "b"] (by decide)

/-- C7: `Diff(A, A)` is empty for every snapshot `A`, and therefore the plan
computed when the declared state equals the persisted state has empty
`install` and empty `remove`. -/
theorem diff_self_empty_plan (A : List Pkg) :
    State.diff A A = [] ∧ (DApt.plan A A).install = [] ∧ (DApt.plan A A).remove = [] := by
  have h : State.diff A A = [] := by
    simp [State.diff, List.filter_eq_nil_iff]
  exact ⟨h, h, h⟩

/-! Helper lemmas about the marking loops of `commit_changes`. -/

theorem markInstalls_ok (cache : Cache) :
    ∀ {ps : List Pkg}, (∀ q ∈ ps, q ∈ cache.pkgs) →
      ∃ c w, AptWrapper.markInstalls cache ps = (c, w, true)
  | [], _ => ⟨[], [], rfl⟩
  | p :: ps, h => by
    have hp : p ∈ cache.pkgs := h p (List.mem_cons_self p ps)
    obtain ⟨c, w, hcw⟩ := markInstalls_ok cache (fun q hq => h q (List.mem_cons_of_mem p hq))
    exact ⟨BackendCall.markInstall p :: c, w, by simp [AptWrapper.markInstalls, hp, hcw]⟩

theorem markRemoves_ok (cache : Cache) :
    ∀ {ps : List Pkg}, (∀ q ∈ ps, q ∈ cache.pkgs) →
      ∃ c w, AptWrapper.markRemoves cache ps = (c, w, true)
  | [], _ => ⟨[], [], rfl⟩
  | p :: ps, h => by
    have hp : p ∈ cache.pkgs := h p (List.mem_cons_self p ps)
    obtain ⟨c, w, hcw⟩ := markRemoves_ok cache (fun q hq => h q (List.mem_cons_of_mem p hq))
    by_cases hi : p ∈ cache.installed
    · exact ⟨BackendCall.markDelete p :: c, w, by simp [AptWrapper.markRemoves, hp, hi, hcw]⟩
    · exact ⟨c, Warning.notInstalledSkip p :: w, by simp [AptWrapper.markRemoves, hp, hi, hcw]⟩

theorem markInstalls_no_delete (cache : Cache) (p : Pkg) :
    ∀ (ps : List Pkg), BackendCall.markDelete p ∉ (AptWrapper.markInstalls cache ps).1
  | [] => by simp [AptWrapper.markInstalls]
  | q :: qs => by
    by_cases hq : q ∈ cache.pkgs
    · rcases hrec : AptWrapper.markInstalls cache qs with ⟨c, w, ok⟩
      have ih := markInstalls_no_delete cache p qs
      rw [hrec] at ih
      simp only [AptWrapper.markInstalls, hrec]
      simp [hq]
      exact ih
    · simp [AptWrapper.markInstalls, hq]

theorem markRemoves_delete_installed (cache : Cache) (p : Pkg) :
    ∀ (ps : List Pkg), BackendCall.markDelete p ∈ (AptWrapper.markRemoves cache ps).1 →
      p ∈ cache.installed
  | [] => by simp [AptWrapper.markRemoves]
  | q :: qs => by
    have ih := markRemoves_delete_installed cache p qs
    rcases hrec : AptWrapper.markRemoves cache qs with ⟨c, w, ok⟩
    rw [hrec] at ih
    by_cases hq : q ∈ cache.pkgs
    · by_cases hi : q ∈ cache.installed
      · simp only [AptWrapper.markRemoves, hrec]
        simp [hq, hi]
        rintro (rfl | h)
        · exact hi
        · exact ih h
      · simp only [AptWrapper.markRemoves, hrec]
        simp [hq, hi]
        exact ih
    · simp [AptWrapper.markRemoves, hq]

theorem markRemoves_warn (cache : Cache) (p : Pkg) :
    ∀ (ps : List Pkg), (∀ q ∈ ps, q ∈ cache.pkgs) → p ∈ ps → p ∉ cache.installed →
      Warning.notInstalledSkip p ∈ (AptWrapper.markRemoves cache ps).2.1
  | [] => by
    intro _ hmem _
    exact absurd hmem (List.not_mem_nil p)
  | q :: qs => by
    intro hall hmem hni
    have hq : q ∈ cache.pkgs := hall q (List.mem_cons_self q qs)
    rcases hrec : AptWrapper.markRemoves cache qs with ⟨c, w, ok⟩
    by_cases hi : q ∈ cache.installed
    · have hpq : p ≠ q := fun e => hni (e ▸ hi)
      have hpqs : p ∈ qs := by
        cases List.mem_cons.mp hmem with
        | inl h1 => exact absurd h1 hpq
        | inr h1 => exact h1
      have ih := markRemoves_warn cache p qs
        (fun r hr => hall r (List.mem_cons_of_mem q hr)) hpqs hni
      rw [hrec] at ih
      simp only [AptWrapper.markRemoves, hrec]
      simp [hq, hi]
      exact ih
    · by_cases hpq : p = q
      · subst hpq
        simp only [AptWrapper.markRemoves, hrec]
        simp [hq, hi]
      · have hpqs : p ∈ qs := by
          cases List.mem_cons.mp hmem with
          | inl h1 => exact absurd h1 hpq
          | inr h1 => exact h1
        have ih := markRemoves_warn cache p qs
          (fun r hr => hall r (List.mem_cons_of_mem q hr)) hpqs hni
        rw [hrec] at ih
        simp only [AptWrapper.markRemoves, hrec]
        simp [hq, hi]
        exact Or.inr ih

/-- C1 fails on the code: for the plan document with empty `install` and
empty `remove` lists — exactly what the `plan` command writes when there is
nothing to do — `apply` does NOT take the no-changes path (`if not plan:` is
false on a non-empty dict): it calls the backend `commit`, rewrites the state
file, and never prints the no-changes report. -/
theorem apply_empty_lists_plan_commits :
    DApt.apply (FileData.stored ["a"]) (FileData.stored (PlanJson.planObject ⟨[], []⟩))
      ⟨[], []⟩ false
      = ⟨[BackendCall.commit], [], 0, FileData.stored ["a"], false⟩ := by decide

/-- C2 fails on the code: with a plan naming a package absent from the
backend cache, `commit_changes` returns `False` before committing, but
`apply` ignores that value: no commit happens, yet the persisted state IS
rewritten (now containing the unresolvable package) and the process exits 0. -/
theorem apply_unresolvable_continues :
    DApt.apply (FileData.stored []) (FileData.stored (PlanJson.planObject ⟨["ghost"], []⟩))
      ⟨[], []⟩ false
      = ⟨[], [Warning.notFoundInCache "ghost"], 0, FileData.stored ["ghost"], false⟩ := by
  decide

/-- C3: when every package of the plan resolves in the backend cache but the
backend commit itself fails, `apply` exits with code 1 and the state file is
left exactly as it was (the patch and write are never reached). -/
theorem apply_commit_failure_keeps_state (s : List Pkg) (p : Plan) (cache : Cache)
    (hi : ∀ q ∈ p.install, q ∈ cache.pkgs) (hr : ∀ q ∈ p.remove, q ∈ cache.pkgs) :
    (DApt.apply (FileData.stored s) (FileData.stored (PlanJson.planObject p))
      cache true).exitCode = 1 ∧
    (DApt.apply (FileData.stored s) (FileData.stored (PlanJson.planObject p))
      cache true).stateAfter = FileData.stored s := by
  obtain ⟨ic, iw, hI⟩ := markInstalls_ok cache hi
  obtain ⟨rc, w2, hR⟩ := markRemoves_ok cache hr
  have hcc : AptWrapper.commit_changes cache true p
      = (ic ++ rc ++ [BackendCall.commit], iw ++ w2, CommitOutcome.commitFail) := by
    simp [AptWrapper.commit_changes, hI, hR]
  simp [DApt.apply, hcc]

/-- Witness for C3 at a concrete input. -/
theorem apply_commit_failure_keeps_state_witness :
    (DApt.apply (FileData.stored ["a"]) (FileData.stored (PlanJson.planObject ⟨[], []⟩))
      ⟨[], []⟩ true).exitCode = 1 ∧
    (DApt.apply (FileData.stored ["a"]) (FileData.stored (PlanJson.planObject ⟨[], []⟩))
      ⟨[], []⟩ true).stateAfter = FileData.stored ["a"] :=
  apply_commit_failure_keeps_state ["a"] ⟨[], []⟩ ⟨[], []⟩ (by decide) (by decide)

/-- C8: `init` on an existing state file (whatever it holds) exits 0 and does
not touch the file; two runs in a row always exit 0 and an existing stored
state survives both runs unchanged. -/
theorem init_existing_noop_idempotent (f : FileData (List Pkg)) :
    (f ≠ FileData.missing → DApt.init f = (0, f)) ∧
    (DApt.init f).1 = 0 ∧
    (DApt.init ((DApt.init f).2)).1 = 0 ∧
    (∀ s, f = FileData.stored s → (DApt.init ((DApt.init f).2)).2 = FileData.stored s) := by
  cases f <;> simp [DApt.init]

/-- Witness for C8 at a concrete input. -/
theorem init_existing_noop_idempotent_witness :
    DApt.init (FileData.stored ["x"]) = (0, FileData.stored ["x"]) ∧
    (DApt.init ((DApt.init (FileData.stored ["x"])).2)).2 = FileData.stored ["x"] :=
  ⟨(init_existing_noop_idempotent (FileData.stored ["x"])).1 (by decide),
   (init_existing_noop_idempotent (FileData.stored ["x"])).2.2.2 ["x"] rfl⟩

/-- C10: a remove entry that resolves in the cache but is not currently
installed produces the skip warning, is never marked for delete, and does not
stop the run: the backend commit still happens and (for a well-formed plan
whose remove list is duplicate-free and drawn from the state, and a
successful commit) the run exits 0. -/
theorem apply_remove_not_installed_soft (s inst rem : List Pkg) (cache : Cache) (p : Pkg)
    (hmem : p ∈ rem) (hni : p ∉ cache.installed)
    (hi : ∀ q ∈ inst, q ∈ cache.pkgs) (hr : ∀ q ∈ rem, q ∈ cache.pkgs)
    (hrn : rem.Nodup) (hrs : ∀ q ∈ rem, q ∈ s) :
    Warning.notInstalledSkip p ∈ (DApt.apply (FileData.stored s)
      (FileData.stored (PlanJson.planObject ⟨inst, rem⟩)) cache false).warnings ∧
    BackendCall.markDelete p ∉ (DApt.apply (FileData.stored s)
      (FileData.stored (PlanJson.planObject ⟨inst, rem⟩)) cache false).calls ∧
    BackendCall.commit ∈ (DApt.apply (FileData.stored s)
      (FileData.stored (PlanJson.planObject ⟨inst, rem⟩)) cache false).calls ∧
    (DApt.apply (FileData.stored s)
      (FileData.stored (PlanJson.planObject ⟨inst, rem⟩)) cache false).exitCode = 0 := by
  obtain ⟨ic, iw, hI⟩ := markInstalls_ok cache hi
  obtain ⟨rc, w2, hR⟩ := markRemoves_ok cache hr
  have hcc : AptWrapper.commit_changes cache false ⟨inst, rem⟩
      = (ic ++ rc ++ [BackendCall.commit], iw ++ w2, CommitOutcome.success) := by
    simp [AptWrapper.commit_changes, hI, hR]
  obtain ⟨mid, hmid⟩ := removeSeq_total hrn
    (fun q hq => List.mem_append_left inst (hrs q hq))
  have happ : DApt.apply (FileData.stored s)
      (FileData.stored (PlanJson.planObject ⟨inst, rem⟩)) cache false
      = ⟨ic ++ rc ++ [BackendCall.commit], iw ++ w2, 0,
          FileData.stored (State.dedupFirstOcc mid), false⟩ := by
    simp [DApt.apply, hcc, DApt.applyFinish, State.patch, hmid]
  rw [happ]
  refine ⟨?_, ?_, ?_, rfl⟩
  · have hw := markRemoves_warn cache p rem hr hmem hni
    rw [hR] at hw
    exact List.mem_append_right _ hw
  · intro hc
    rcases List.mem_append.mp hc with h1 | h1
    · rcases List.mem_append.mp h1 with h2 | h2
      · have hid := markInstalls_no_delete cache p inst
        rw [hI] at hid
        exact hid h2
      · have hrd := markRemoves_delete_installed cache p rem
        rw [hR] at hrd
        exact hni (hrd h2)
    · simp at h1
  · exact List.mem_append_right _ (List.mem_cons_self _ _)

/-- Witness for C10 at a concrete input. -/
theorem apply_remove_not_installed_soft_witness :
    Warning.notInstalledSkip "x" ∈ (DApt.apply (FileData.stored ["x"])
      (FileData.stored (PlanJson.planObject ⟨[], ["x"]⟩)) ⟨["x"], []⟩ false).warnings ∧
    BackendCall.markDelete "x" ∉ (DApt.apply (FileData.stored ["x"])
      (FileData.stored (PlanJson.planObject ⟨[], ["x"]⟩)) ⟨["x"], []⟩ false).calls ∧
    BackendCall.commit ∈ (DApt.apply (FileData.stored ["x"])
      (FileData.stored (PlanJson.planObject ⟨[], ["x"]⟩)) ⟨["x"], []⟩ false).calls ∧
    (DApt.apply (FileData.stored ["x"])
      (FileData.stored (PlanJson.planObject ⟨[], ["x"]⟩)) ⟨["x"], []⟩ false).exitCode = 0 :=
  apply_remove_not_installed_soft ["x"] [] ["x"] ⟨["x"], []⟩ "x"
    (by decide) (by decide) (by decide) (by decide) (by decide) (by decide)

/-! The scanner agrees, line by line, with the amended per-line contribution
function. -/

theorem buildStep_eq (state : List Pkg) (rawLine : List Char) :
    State.buildStep state rawLine = state ++ (amendedLineContribution rawLine).toList := by
  simp only [State.buildStep, amendedLineContribution]
  split_ifs <;> simp

/-- C9 (amended): the scanner produces exactly, in input-line order, the
per-line contributions in which blank lines, `#` lines, `---` lines and lines
ending in `:` contribute nothing, a line beginning with `-` contributes the
remainder after stripping ALL leading `-` characters trimmed of whitespace
(nothing when that is empty), and every other line is silently ignored. -/
theorem declared_scanner_amended (lines : List (List Char)) :
    State.build_user_declared_state lines = lines.filterMap amendedLineContribution := by
  suffices h : ∀ (ls : List (List Char)) (acc : List Pkg),
      ls.foldl State.buildStep acc = acc ++ ls.filterMap amendedLineContribution by
    simpa using h lines []
  intro ls
  induction ls with
  | nil => intro acc; simp
  | cons l ls ih =>
    intro acc
    rw [List.foldl_cons, ih, buildStep_eq]
    cases h : amendedLineContribution l <;>
      simp [List.filterMap_cons, h]

/-- C9 as stated is false on the code: on the line `--foo` the scanner
contributes `foo` (it strips ALL leading `-` characters), not the trimmed
remainder `-foo` after the single list-item marker that the claim
describes. -/
theorem declared_scanner_claim_counterexample :
    State.build_user_declared_state ["--foo".data]
      ≠ List.filterMap claimLineContribution ["--foo".data] := by decide
